import Mathlib

set_option maxRecDepth 8000
set_option synthInstance.maxSize 512

/-!
Verification of the semantic MDX chunker
(src/backend/scripts/semantic_chunker.py) against its specification.

The Python text operations are modelled over `List Char` so that every
definition is structurally recursive and evaluable by the kernel.  The source
documents are ASCII, so the ASCII fragments of Python's `str.lower`,
`str.split`, and the regex classes `\w` and `\s` are used.
-/

/-- Characters treated as whitespace by Python's `str.split()`, `str.strip()`
and the regex class `\s` (ASCII range). -/
def pySpace (c : Char) : Bool :=
  c = ' ' || c = '\t' || c = '\n' || c = '\r' || c = '\x0b' || c = '\x0c'

/-- Word characters of the regex class `\w` (ASCII range). -/
def isWordChar (c : Char) : Bool := c.isAlpha || c.isDigit || c = '_'

/-- Python strings are modelled as lists of characters (Python indices are
code points, matching `List Char` positions). -/
abbrev Text := List Char

/-- Python `content.split('\n')`. -/
def splitLinesCh : Text → List Text
  | [] => [[]]
  | c :: rest =>
    if c = '\n' then [] :: splitLinesCh rest
    else
      match splitLinesCh rest with
      | [] => [[c]]
      | l :: ls => (c :: l) :: ls

/-- Python `'\n'.join(lines)`. -/
def joinLines : List Text → Text
  | [] => []
  | [l] => l
  | l :: ls => l ++ '\n' :: joinLines ls

/-- Python `content.split('\n\n')`: non-overlapping occurrences scanned left
to right, empty parts kept. -/
def splitParasCh : Text → List Text
  | [] => [[]]
  | [c] => [[c]]
  | c₁ :: c₂ :: rest =>
    if c₁ = '\n' ∧ c₂ = '\n' then [] :: splitParasCh rest
    else
      match splitParasCh (c₂ :: rest) with
      | [] => [[c₁]]
      | p :: ps => (c₁ :: p) :: ps

/-- Python `'\n\n'.join(paragraphs)`. -/
def joinParas : List Text → Text
  | [] => []
  | [p] => p
  | p :: ps => p ++ '\n' :: '\n' :: joinParas ps

/-- Helper for `wordCount`: the Bool records whether the previous character
was part of a word. -/
def wordsLoop : Bool → Text → Nat
  | _, [] => 0
  | inWord, c :: rest =>
    if pySpace c then wordsLoop false rest
    else (if inWord then 0 else 1) + wordsLoop true rest

/-- Python `len(text.split())`: number of maximal runs of non-whitespace. -/
def wordCount (t : Text) : Nat := wordsLoop false t

/-- Python `not text.strip()`: the text is empty or whitespace-only. -/
def isBlank (t : Text) : Bool := t.all pySpace

/-- Python `text.strip()`. -/
def pyStrip (t : Text) : Text :=
  ((t.dropWhile (fun c => pySpace c)).reverse.dropWhile (fun c => pySpace c)).reverse

/-- Helper for `findSub`; `i` is the index of the head of the third argument
in the original text. -/
def findSubAux (pat : Text) (i : Nat) : Text → Option Nat
  | [] => if pat.isPrefixOf ([] : Text) then some i else none
  | c :: rest => if pat.isPrefixOf (c :: rest) then some i else findSubAux pat (i + 1) rest

/-- Index of the first occurrence of `pat` in `t` (Python `t.find(pat)`,
with `none` in place of `-1`). -/
def findSub (pat t : Text) : Option Nat := findSubAux pat 0 t

/-- Python `pat in t` (substring containment). -/
def containsSub (pat t : Text) : Bool := (findSub pat t).isSome

/-- Python `text.lower()` on ASCII text (`Char.toLower` lowers `A`-`Z`). -/
def pyLower (t : Text) : Text := t.map Char.toLower

/-- An open-fence line of the regex `^```[\w]*\n...`: the entire line is three
backticks followed by word characters only.  The required trailing newline is
checked at the call site (the line must not be the last one). -/
def lineOpensFence (l : Text) : Bool :=
  l.take 3 = "```".data && (l.drop 3).all isWordChar

/-- A close-fence line of the regex `...,.*?^```'`: any line starting with
three backticks (the match ends right after them, mid-line). -/
def lineClosesFence (l : Text) : Bool := l.take 3 = "```".data

/-- Spans of the complete fenced code blocks, as found by `finditer` of
`re.compile(r'^```[\w]*\n.*?^```', re.MULTILINE | re.DOTALL)` over the text:
scan lines left to right; a fence opens at a full `` ```word `` line followed
by a newline, and closes at the first later line starting with three
backticks, the span ending just after those backticks.  After a close the
scan resumes on the next line (the close line's remainder contains no line
start).  An unclosed fence yields no span, and no line after it can start a
match (an open line is itself backtick-prefixed, so it would have served as a
close).  `ofs` is the character offset of the current line; `openStart` holds
the offset of the pending open line. -/
def fenceSpansLines (ofs : Nat) (openStart : Option Nat) : List Text → List (Nat × Nat)
  | [] => []
  | l :: rest =>
    match openStart with
    | none =>
      if lineOpensFence l && !rest.isEmpty then
        fenceSpansLines (ofs + l.length + 1) (some ofs) rest
      else
        fenceSpansLines (ofs + l.length + 1) none rest
    | some s =>
      if lineClosesFence l then
        (s, ofs + 3) :: fenceSpansLines (ofs + l.length + 1) none rest
      else
        fenceSpansLines (ofs + l.length + 1) (some s) rest

/-- `detect_code_blocks` and the matches of `code_fence_pattern`: the spans
are produced in ascending start order, so the source's final `sorted` is the
identity. -/
def codeFenceSpansText (t : Text) : List (Nat × Nat) :=
  fenceSpansLines 0 none (splitLinesCh t)

/-- `estimate_tokens`.  The source computes `int(words * 1.3)` in binary
floating point; for every word count below `10^15` the double rounding error
(about `4.5e-17` per unit) cannot move the product across an integer
boundary, so the value equals the exact truncation `words * 13 / 10`, which
is what is used here. -/
def estimate_tokens (t : Text) : Nat :=
  wordCount t * 13 / 10 + 50 * (codeFenceSpansText t).length

/-- The remaining-content part of `extract_frontmatter`: the pattern
`^---\n(.*?)\n---\n` anchored at the start strips everything through the
first occurrence of `"\n---\n"` at index at least 4.  The parsed dictionary
is discarded by `chunk_content`, so only the remainder is modelled. -/
def stripFrontmatter (t : Text) : Text :=
  if t.take 4 = "---\n".data then
    match findSub "\n---\n".data (t.drop 4) with
    | some i => t.drop (4 + i + 5)
    | none => t
  else t

/-- A line at which `split_at_heading` starts a new section:
`re.match(r'^(#{1,2})\s+(.+)$', line)` succeeds.  With the hashes followed by
at least one whitespace character and at least one further character on the
line the pattern matches (`.+` may itself match whitespace after
backtracking); a run of three or more hashes never matches. -/
def isH12Line (l : Text) : Bool :=
  let j := (l.takeWhile (fun c => c = '#')).length
  (decide (1 ≤ j) && decide (j ≤ 2)) &&
    match l.drop j with
    | c :: _ :: _ => pySpace c
    | _ => false

/-- The accumulator loop of `split_at_heading`: a heading line flushes the
current (non-empty) section and starts a new one. -/
def sahLoop (cur : List Text) : List Text → List (List Text)
  | [] => if cur.isEmpty then [] else [cur]
  | l :: ls =>
    if isH12Line l && !cur.isEmpty then cur :: sahLoop [l] ls
    else sahLoop (cur ++ [l]) ls

/-- `split_at_heading`: split at H1/H2 boundaries, sections joined back with
newlines. -/
def split_at_heading (t : Text) : List Text :=
  (sahLoop [] (splitLinesCh t)).map joinLines

/-- Backtracking helper for a heading match whose whitespace run reaches the
end of the text: `\s+` gives back the minimal suffix starting with a
non-newline character, so `(.+)` matches exactly the last non-newline
character of the run (everything after it is newlines) — but `\s+` must
itself keep at least one character, so that last non-newline character must
not be the first character of the run.  Returns the title character and the
unconsumed newline tail, or `none` if the run is all newlines or its only
non-newline character is its first one. -/
def lastNonNl (w : Text) : Option (Char × Text) :=
  match w.reverse.dropWhile (fun c => c = '\n') with
  | [] => none
  | c :: before =>
    if before.isEmpty then none
    else some (c, (w.reverse.takeWhile (fun c => c = '\n')).reverse)

/-- Attempt a match of `heading_pattern = r'^(#{1,6})\s+(.+)$'` (MULTILINE) at
a line-start position.  `\s+` is maximal and may span newlines; `(.+)` then
matches to the end of that line; with MULTILINE `$` always holds there.
Returns level, stripped title (the source strips `group(2)`), and the text
after the match. -/
def tryHeading (t : Text) : Option (Nat × Text × Text) :=
  let k := (t.takeWhile (fun c => c = '#')).length
  if 1 ≤ k ∧ k ≤ 6 then
    let after := t.drop k
    let w := after.takeWhile (fun c => pySpace c)
    let rest := after.drop w.length
    if w.isEmpty then none
    else
      match rest with
      | [] =>
        match lastNonNl w with
        | none => none
        | some (c, tail) => some (k, pyStrip [c], tail)
      | _ =>
        let title := rest.takeWhile (fun c => c ≠ '\n')
        some (k, pyStrip title, rest.drop title.length)
  else none

/-- `finditer` of `heading_pattern` over a text: try a match at every line
start, scanning left to right, resuming after each match (a match ends at a
line end, so the position after it is mid-line and never a line start).  The
fuel argument only bounds recursion; every step consumes at least one
character, so `length + 1` fuel suffices. -/
def headingScanF : Nat → Bool → Text → List (Nat × Text)
  | 0, _, _ => []
  | _ + 1, _, [] => []
  | fuel + 1, atStart, c :: rest =>
    if atStart then
      match tryHeading (c :: rest) with
      | some (lvl, title, after) => (lvl, title) :: headingScanF fuel false after
      | none => headingScanF fuel (c = '\n') rest
    else headingScanF fuel (c = '\n') rest

/-- All matches of `heading_pattern` in the text, in order. -/
def headingMatches (t : Text) : List (Nat × Text) :=
  headingScanF (t.length + 1) true t

/-- `extract_heading_hierarchy`: replay the heading matches, keeping for each
level the most recent title and clearing deeper levels; emit titles by
ascending level.  The level map is kept as an assoc list sorted by level
(`filter (< level) ++ [entry]` deletes the old entry at the level and all
deeper ones), which matches the source's dict update followed by
`sorted(keys)`. -/
def extract_heading_hierarchy (t : Text) : List Text :=
  ((headingMatches t).foldl
    (fun levels p => levels.filter (fun q => q.1 < p.1) ++ [p]) []).map (fun p => p.2)

/-- `classify_content_type`: first matching rule wins, matching the source's
order; keyword tests are case-insensitive substring searches. -/
def classify_content_type (cc : Text) : String :=
  let low := pyLower cc
  if !(codeFenceSpansText cc).isEmpty then
    if ["example", "demo", "try"].any (fun w => containsSub w.data low) then "code_example"
    else "code_reference"
  else if ["what is", "introduction", "overview", "understand"].any
      (fun w => containsSub w.data low) then "explanation"
  else if ["step", "first", "next", "then", "finally"].any
      (fun w => containsSub w.data low) then "tutorial"
  else if ["api", "function", "parameter", "returns"].any
      (fun w => containsSub w.data low) then "reference"
  else "general"

/-- The language detection in `chunk_content`:
`re.search(r'^```([\w]+)', chunk_content, re.MULTILINE)` — the first line
starting with three backticks followed by at least one word character; the
fence need not be closed. -/
def detectLanguageLines : List Text → Option Text
  | [] => none
  | l :: rest =>
    if l.take 3 = "```".data && !((l.drop 3).takeWhile isWordChar).isEmpty then
      some ((l.drop 3).takeWhile isWordChar)
    else detectLanguageLines rest

def chunkLanguage (cc : Text) : Option Text := detectLanguageLines (splitLinesCh cc)

/-- A match of `link_pattern = r'\[([^\]]+)\]\(([^\)]+)\)'` starting at the
head of the text: the bracketed part runs to the first `]`, which must be
followed directly by `(`, and the parenthesised part runs to the first `)`;
both parts must be non-empty. -/
def linkAt : Text → Bool
  | '[' :: rest =>
    let a := rest.takeWhile (fun c => c ≠ ']')
    (match rest.drop a.length with
     | ']' :: '(' :: r2 =>
       let b := r2.takeWhile (fun c => c ≠ ')')
       !a.isEmpty && !b.isEmpty && !(r2.drop b.length).isEmpty
     | _ => false)
  | _ => false

/-- `link_pattern.search(content)` succeeds: a link match starts at some
position. -/
def hasLink : Text → Bool
  | [] => false
  | c :: rest => linkAt (c :: rest) || hasLink rest

/-- Decimal digits of `n`, most significant first, by repeated division; the
fuel argument (`n` itself suffices) only bounds the recursion. -/
def natDigitsAux : Nat → Nat → List Char
  | 0, _ => []
  | fuel + 1, n =>
    if n = 0 then [] else natDigitsAux fuel (n / 10) ++ [Nat.digitChar (n % 10)]

/-- Decimal representation of a natural number. -/
def natRepr (n : Nat) : Text := if n = 0 then ['0'] else natDigitsAux n n

/-- Python format `f"{position:03d}"`: zero-padded to width three, full
decimal beyond. -/
def pad3 (n : Nat) : Text :=
  if n < 10 then '0' :: '0' :: natRepr n
  else if n < 100 then '0' :: natRepr n
  else natRepr n

/-- `pathlib.Path(source_file).stem`: the final path component without its
last suffix; a leading dot or a bare trailing dot is not a suffix.  (Path
normalisation for exotic inputs such as trailing slashes is not modelled;
the chunker passes ordinary file names.) -/
def pyStem (p : String) : Text :=
  let name := (p.data.reverse.takeWhile (fun c => c ≠ '/')).reverse
  let revTail := name.reverse.takeWhile (fun c => c ≠ '.')
  if revTail.length = name.length then name
  else
    let i := name.length - 1 - revTail.length
    if 0 < i ∧ i + 1 < name.length then name.take i else name

/-- `chunk_id=f"{Path(source_file).stem}-{position:03d}"`. -/
def chunkIdOf (f : String) (pos : Nat) : Text := pyStem f ++ '-' :: pad3 pos

/-- The chunker's configuration state: `__init__` stores the three sizes on
`self`.  Python argument order is (min, max, target). -/
structure SemanticMDXChunker where
  min_chunk_size : Int
  max_chunk_size : Int
  target_chunk_size : Int
deriving DecidableEq

/-- `SemanticMDXChunker.__init__(min_chunk_size, max_chunk_size,
target_chunk_size)`: the source stores the values unchanged; it contains no
validation and no failure path, so the model is a total constructor. -/
def SemanticMDXChunker.init (minSize maxSize targetSize : Int) : SemanticMDXChunker :=
  ⟨minSize, maxSize, targetSize⟩

/-- The `Chunk` dataclass.  The `keywords` field is not modelled: its value
is truncated from a Python `set` whose iteration order is not specified, and
no claim concerns it. -/
structure Chunk where
  content : Text
  heading_hierarchy : List Text
  content_type : String
  language : Option Text
  character_count : Nat
  token_estimate : Nat
  has_code : Bool
  has_links : Bool
  position : Nat
  chunk_id : Text
deriving DecidableEq

/-- Construction of one `Chunk` record inside `chunk_content`'s inner loop:
`acc` is `accumulated_text` at that point, `cc` the chunk's content. -/
def mkChunk (f : String) (pos : Nat) (acc cc : Text) : Chunk where
  content := cc
  heading_hierarchy := extract_heading_hierarchy acc
  content_type := classify_content_type cc
  language := chunkLanguage cc
  character_count := cc.length
  token_estimate := estimate_tokens cc
  has_code := !(codeFenceSpansText cc).isEmpty
  has_links := hasLink cc
  position := pos
  chunk_id := chunkIdOf f pos

/-- The paragraph loop of `chunk_large_section`.  `sec` is the section text,
`cbs` the global code-block spans (note the source quirks kept here: the
spans are offsets into the whole document while `find` searches the section,
and `find` returns the first occurrence of the paragraph).  Both `if`
blocks of the source body run for each paragraph, in order. -/
def clsLoop (ch : SemanticMDXChunker) (cbs : List (Nat × Nat)) (sec : Text)
    (cur : List Text) (curSize : Nat) : List Text → List Text
  | [] => if cur.isEmpty then [] else [joinParas cur]
  | p :: ps =>
    let pSize := estimate_tokens p
    let hasCode :=
      match findSub p sec with
      | some i => cbs.any (fun b => decide (b.1 ≤ i) && decide (i < b.2))
      | none => false
    let flush := decide (((curSize + pSize : Nat) : Int) > ch.target_chunk_size) && !cur.isEmpty
    let emitted1 := if flush then [joinParas cur] else []
    let cur1 := if flush then [p] else cur ++ [p]
    let size1 := if flush then pSize else curSize + pSize
    let force := hasCode && decide ((pSize : Int) > ch.max_chunk_size)
    let emitted2 :=
      if force then (if 1 < cur1.length then [joinParas cur1.dropLast] else []) ++ [p]
      else []
    let cur2 := if force then [] else cur1
    let size2 := if force then 0 else size1
    emitted1 ++ emitted2 ++ clsLoop ch cbs sec cur2 size2 ps

/-- `chunk_large_section(section, code_blocks)`. -/
def chunk_large_section (ch : SemanticMDXChunker) (sec : Text)
    (cbs : List (Nat × Nat)) : List Text :=
  clsLoop ch cbs sec [] 0 (splitParasCh sec)

/-- The inner loop of `chunk_content` over one section's chunk strings:
whitespace-only candidates are skipped; otherwise the position is advanced,
a `Chunk` is built against the current `accumulated_text`, and the content
plus a newline is appended to it.  Returns the chunks together with the
final position and accumulated text. -/
def emitChunks (f : String) (pos : Nat) (acc : Text) : List Text → List Chunk × Nat × Text
  | [] => ([], pos, acc)
  | cc :: rest =>
    if isBlank cc then emitChunks f pos acc rest
    else
      let out := emitChunks f (pos + 1) (acc ++ cc ++ ['\n']) rest
      (mkChunk f (pos + 1) acc cc :: out.1, out.2)

/-- The outer loop of `chunk_content` over sections: a section whose estimate
is within the maximum is kept whole, otherwise it is packed by
`chunk_large_section`; position and accumulated text persist across
sections. -/
def sectionsLoop (ch : SemanticMDXChunker) (f : String) (cbs : List (Nat × Nat))
    (pos : Nat) (acc : Text) : List Text → List Chunk
  | [] => []
  | sec :: ss =>
    let secChunks :=
      if (estimate_tokens sec : Int) ≤ ch.max_chunk_size then [sec]
      else chunk_large_section ch sec cbs
    let e := emitChunks f pos acc secChunks
    e.1 ++ sectionsLoop ch f cbs e.2.1 e.2.2 ss

/-- `chunk_content(content, source_file)`: strip frontmatter, detect code
blocks, split at major headings, pack, annotate, and emit the ordered chunk
sequence. -/
def chunk_content (ch : SemanticMDXChunker) (content : String)
    (source_file : String) : List Chunk :=
  let main := stripFrontmatter content.data
  sectionsLoop ch source_file (codeFenceSpansText main) 0 [] (split_at_heading main)

/-- All whitespace removed.  Coverage is stated modulo whitespace: chunk
boundaries replace separator whitespace (section newlines, paragraph blank
lines, dropped whitespace-only candidates) but preserve every other
character in order. -/
def stripWS (t : Text) : Text := t.filter (fun c => !pySpace c)

/-- `stripWS` of each text, concatenated. -/
def SW (l : List Text) : Text := (l.map stripWS).flatten

/-- Modelled from the spec (section 4.5): the token-estimate formula
`round(word_count * 1.3) + 50 * number_of_complete_code_fences`, with
`round` read as Python's round (half-to-even) applied to the exact value
`13 * word_count / 10`.  Written for comparison with the source's
`estimate_tokens`, which truncates instead. -/
def estimateTokensSpec (t : Text) : Nat :=
  let m := 13 * wordCount t
  let q := m / 10
  let r := m % 10
  (if r < 5 then q else if 5 < r then q + 1 else if q % 2 = 0 then q else q + 1)
    + 50 * (codeFenceSpansText t).length

/-- The contribution of a list of already-emitted chunks to
`accumulated_text`: each content followed by a newline. -/
def accOf (cs : List Chunk) : Text := (cs.map (fun c => c.content ++ ['\n'])).flatten

/-- Every chunk's `heading_hierarchy` is `extract_heading_hierarchy` of the
concatenation of the previously emitted chunks' contents, each followed by a
newline (the running `accumulated_text`), the first argument being the text
accumulated before the list. -/
def hhOk : Text → List Chunk → Prop
  | _, [] => True
  | acc, c :: cs =>
    c.heading_hierarchy = extract_heading_hierarchy acc ∧
      hhOk (acc ++ c.content ++ ['\n']) cs

/-! ### Text infrastructure lemmas -/

theorem stripWS_append (a b : Text) : stripWS (a ++ b) = stripWS a ++ stripWS b :=
  List.filter_append a b

theorem stripWS_of_isBlank {t : Text} (h : isBlank t = true) : stripWS t = [] := by
  induction t with
  | nil => rfl
  | cons c rest ih =>
    simp only [isBlank, List.all_cons, Bool.and_eq_true] at h
    simp [stripWS, List.filter_cons, h.1]
    exact List.all_eq_true.mp h.2

theorem SW_append (a b : List Text) : SW (a ++ b) = SW a ++ SW b := by
  simp [SW]

theorem SW_cons (x : Text) (l : List Text) : SW (x :: l) = stripWS x ++ SW l := by
  simp [SW]

theorem stripWS_flatten (l : List Text) : stripWS l.flatten = SW l := by
  induction l with
  | nil => rfl
  | cons x l ih => simp [SW_cons, stripWS_append, ih]

theorem splitLinesCh_cons_nl (rest : Text) :
    splitLinesCh ('\n' :: rest) = [] :: splitLinesCh rest := by
  simp [splitLinesCh]

theorem splitLinesCh_cons_ne {c : Char} (hc : c ≠ '\n') {rest l : Text} {ls : List Text}
    (h : splitLinesCh rest = l :: ls) : splitLinesCh (c :: rest) = (c :: l) :: ls := by
  simp [splitLinesCh, hc, h]

theorem splitLinesCh_ne_nil (t : Text) : splitLinesCh t ≠ [] := by
  cases t with
  | nil => simp [splitLinesCh]
  | cons c rest =>
    simp only [splitLinesCh]
    split
    · simp
    · split <;> simp

theorem joinLines_cons_cons (l a : Text) (ls : List Text) :
    joinLines (l :: a :: ls) = l ++ '\n' :: joinLines (a :: ls) := rfl

theorem joinLines_splitLinesCh (t : Text) : joinLines (splitLinesCh t) = t := by
  induction t with
  | nil => rfl
  | cons c rest ih =>
    rcases h : splitLinesCh rest with _ | ⟨l, ls⟩
    · exact absurd h (splitLinesCh_ne_nil rest)
    · by_cases hc : c = '\n'
      · subst hc
        rw [splitLinesCh_cons_nl, h, joinLines_cons_cons, ← h, ih]
        rfl
      · rw [splitLinesCh_cons_ne hc h]
        cases ls with
        | nil =>
          rw [h] at ih
          show c :: l = c :: rest
          rw [show joinLines [l] = l from rfl] at ih
          rw [ih]
        | cons b bs =>
          rw [joinLines_cons_cons, List.cons_append, ← joinLines_cons_cons, ← h, ih]

theorem stripWS_cons_nl (t : Text) : stripWS ('\n' :: t) = stripWS t := by
  simp [stripWS, List.filter_cons, pySpace]

theorem stripWS_joinLines (ls : List Text) : stripWS (joinLines ls) = SW ls := by
  induction ls with
  | nil => rfl
  | cons l ls ih =>
    cases ls with
    | nil => simp [joinLines, SW]
    | cons a as =>
      rw [joinLines_cons_cons, stripWS_append, stripWS_cons_nl, ih]
      simp [SW_cons]

theorem splitParasCh_ne_nil (t : Text) : splitParasCh t ≠ [] := by
  match t with
  | [] => simp [splitParasCh]
  | [c] => simp [splitParasCh]
  | c₁ :: c₂ :: rest =>
    simp only [splitParasCh]
    split
    · simp
    · split <;> simp

theorem joinParas_cons_cons (p a : Text) (ps : List Text) :
    joinParas (p :: a :: ps) = p ++ '\n' :: '\n' :: joinParas (a :: ps) := rfl

theorem joinParas_splitParasCh_aux :
    ∀ (n : Nat) (t : Text), t.length ≤ n → joinParas (splitParasCh t) = t := by
  intro n
  induction n with
  | zero =>
    intro t ht
    match t with
    | [] => rfl
  | succ n ih =>
    intro t ht
    match t with
    | [] => rfl
    | [c] => rfl
    | c₁ :: c₂ :: rest =>
      by_cases h : c₁ = '\n' ∧ c₂ = '\n'
      · obtain ⟨h₁, h₂⟩ := h
        subst h₁; subst h₂
        have heq : splitParasCh ('\n' :: '\n' :: rest) = [] :: splitParasCh rest := by
          simp [splitParasCh]
        rw [heq]
        rcases hS : splitParasCh rest with _ | ⟨p, ps⟩
        · exact absurd hS (splitParasCh_ne_nil rest)
        · rw [joinParas_cons_cons, ← hS, ih rest (by simp at ht; omega)]
          rfl
      · have heq : splitParasCh (c₁ :: c₂ :: rest) =
            match splitParasCh (c₂ :: rest) with
            | [] => [[c₁]]
            | p :: ps => (c₁ :: p) :: ps := by
          simp [splitParasCh, h]
        rw [heq]
        rcases hS : splitParasCh (c₂ :: rest) with _ | ⟨p, ps⟩
        · exact absurd hS (splitParasCh_ne_nil _)
        · have ih' : joinParas (splitParasCh (c₂ :: rest)) = c₂ :: rest :=
            ih (c₂ :: rest) (by simp at ht ⊢; omega)
          rw [hS] at ih'
          show joinParas ((c₁ :: p) :: ps) = c₁ :: c₂ :: rest
          cases ps with
          | nil =>
            show c₁ :: p = c₁ :: c₂ :: rest
            rw [show joinParas [p] = p from rfl] at ih'
            rw [ih']
          | cons b bs =>
            rw [joinParas_cons_cons, List.cons_append, ← joinParas_cons_cons, ih']

theorem joinParas_splitParasCh (t : Text) : joinParas (splitParasCh t) = t :=
  joinParas_splitParasCh_aux t.length t le_rfl

theorem stripWS_joinParas (ps : List Text) : stripWS (joinParas ps) = SW ps := by
  induction ps with
  | nil => rfl
  | cons p ps ih =>
    cases ps with
    | nil => simp [joinParas, SW]
    | cons a as =>
      rw [joinParas_cons_cons, stripWS_append, stripWS_cons_nl, stripWS_cons_nl, ih]
      simp [SW_cons]

theorem SW_splitParasCh (t : Text) : SW (splitParasCh t) = stripWS t := by
  rw [← stripWS_joinParas, joinParas_splitParasCh]

theorem SW_nil : SW [] = [] := rfl

theorem SW_single (x : Text) : SW [x] = stripWS x := by simp [SW]

theorem sahLoop_flatten (ls : List Text) :
    ∀ cur, (sahLoop cur ls).flatten = cur ++ ls := by
  induction ls with
  | nil =>
    intro cur
    by_cases h : cur.isEmpty
    · simp [sahLoop, h, List.isEmpty_iff.mp h]
    · simp [sahLoop, h]
  | cons l ls ih =>
    intro cur
    cases h : (isH12Line l && !cur.isEmpty) with
    | true =>
      simp only [sahLoop, h, if_true]
      simp [ih [l]]
    | false =>
      simp only [sahLoop, h, Bool.false_eq_true, if_false]
      rw [ih (cur ++ [l])]
      simp

theorem SW_map_joinLines (G : List (List Text)) :
    SW (G.map joinLines) = SW G.flatten := by
  induction G with
  | nil => rfl
  | cons g G ih => simp [SW_cons, SW_append, stripWS_joinLines, ih]

theorem SW_split_at_heading (t : Text) : SW (split_at_heading t) = stripWS t := by
  rw [split_at_heading, SW_map_joinLines, sahLoop_flatten, List.nil_append,
    ← stripWS_joinLines, joinLines_splitLinesCh]

theorem clsLoop_SW (ch : SemanticMDXChunker) (cbs : List (Nat × Nat)) (sec : Text)
    (ps : List Text) : ∀ cur curSize,
    SW (clsLoop ch cbs sec cur curSize ps) = SW cur ++ SW ps := by
  induction ps with
  | nil =>
    intro cur curSize
    by_cases h : cur.isEmpty
    · simp [clsLoop, h, SW, List.isEmpty_iff.mp h]
    · simp [clsLoop, h, SW_cons, stripWS_joinParas, SW]
  | cons p ps ih =>
    intro cur curSize
    simp only [clsLoop]
    cases hFlush : (decide (((curSize + estimate_tokens p : Nat) : Int) > ch.target_chunk_size)
        && !cur.isEmpty) with
    | false =>
      cases hForce : ((match findSub p sec with
            | some i => cbs.any (fun b => decide (b.1 ≤ i) && decide (i < b.2))
            | none => false)
            && decide ((estimate_tokens p : Int) > ch.max_chunk_size)) with
      | false =>
        simp only [hFlush, hForce, Bool.false_eq_true, if_false, List.nil_append]
        simp [SW_append, SW_cons, SW_nil, ih]
      | true =>
        simp only [hFlush, hForce, Bool.false_eq_true, if_false, if_true, List.nil_append]
        cases cur with
        | nil =>
          simp only [List.nil_append, List.length_singleton]
          simp [SW_append, SW_cons, SW_nil, ih]
        | cons x xs =>
          have hlen : 1 < ((x :: xs) ++ [p]).length := by simp
          rw [if_pos hlen, List.dropLast_concat]
          simp [SW_append, SW_cons, SW_nil, stripWS_joinParas, ih]
    | true =>
      simp only [hFlush, if_true]
      cases hForce : ((match findSub p sec with
            | some i => cbs.any (fun b => decide (b.1 ≤ i) && decide (i < b.2))
            | none => false)
            && decide ((estimate_tokens p : Int) > ch.max_chunk_size)) with
      | false =>
        simp only [hForce, Bool.false_eq_true, if_false]
        simp [SW_append, SW_cons, SW_nil, stripWS_joinParas, ih]
      | true =>
        simp only [hForce, if_true, List.length_singleton]
        simp [SW_append, SW_cons, SW_nil, stripWS_joinParas, ih]

theorem chunk_large_section_SW (ch : SemanticMDXChunker) (sec : Text)
    (cbs : List (Nat × Nat)) : SW (chunk_large_section ch sec cbs) = stripWS sec := by
  rw [chunk_large_section, clsLoop_SW, SW_splitParasCh]
  rfl

/-! ### Emission-loop lemmas -/

theorem emit_SW (f : String) (l : List Text) : ∀ pos acc,
    SW ((emitChunks f pos acc l).1.map (fun c => c.content)) = SW l := by
  induction l with
  | nil => intro pos acc; rfl
  | cons cc rest ih =>
    intro pos acc
    cases hB : isBlank cc with
    | true =>
      simp only [emitChunks, hB, if_true]
      rw [ih, SW_cons, stripWS_of_isBlank hB, List.nil_append]
    | false =>
      simp only [emitChunks, hB, Bool.false_eq_true, if_false, List.map_cons]
      rw [SW_cons, SW_cons, ih]
      rfl

theorem emit_pos_eq (f : String) (l : List Text) : ∀ pos acc,
    (emitChunks f pos acc l).2.1 = pos + (emitChunks f pos acc l).1.length := by
  induction l with
  | nil => intro pos acc; rfl
  | cons cc rest ih =>
    intro pos acc
    cases hB : isBlank cc with
    | true => simp only [emitChunks, hB, if_true]; exact ih pos acc
    | false =>
      simp only [emitChunks, hB, Bool.false_eq_true, if_false, List.length_cons]
      rw [ih]
      omega

theorem emit_positions (f : String) (l : List Text) : ∀ pos acc,
    (emitChunks f pos acc l).1.map (fun c => c.position) =
      List.range' (pos + 1) (emitChunks f pos acc l).1.length := by
  induction l with
  | nil => intro pos acc; rfl
  | cons cc rest ih =>
    intro pos acc
    cases hB : isBlank cc with
    | true => simp only [emitChunks, hB, if_true]; exact ih pos acc
    | false =>
      simp only [emitChunks, hB, Bool.false_eq_true, if_false, List.map_cons,
        List.length_cons, List.range'_succ]
      exact congrArg (_ :: ·) (ih (pos + 1) _)

theorem emit_mem (f : String) (l : List Text) : ∀ pos acc,
    ∀ c ∈ (emitChunks f pos acc l).1,
      c.chunk_id = chunkIdOf f c.position ∧
      c.language = chunkLanguage c.content ∧
      isBlank c.content = false := by
  induction l with
  | nil => intro pos acc c hc; simp [emitChunks] at hc
  | cons cc rest ih =>
    intro pos acc c hc
    cases hB : isBlank cc with
    | true =>
      simp only [emitChunks, hB, if_true] at hc
      exact ih pos acc c hc
    | false =>
      simp only [emitChunks, hB, Bool.false_eq_true, if_false, List.mem_cons] at hc
      rcases hc with rfl | hc
      · exact ⟨rfl, rfl, hB⟩
      · exact ih (pos + 1) _ c hc

theorem emit_acc (f : String) (l : List Text) : ∀ pos acc,
    (emitChunks f pos acc l).2.2 = acc ++ accOf (emitChunks f pos acc l).1 := by
  induction l with
  | nil => intro pos acc; simp [emitChunks, accOf]
  | cons cc rest ih =>
    intro pos acc
    cases hB : isBlank cc with
    | true => simp only [emitChunks, hB, if_true]; exact ih pos acc
    | false =>
      simp only [emitChunks, hB, Bool.false_eq_true, if_false]
      rw [ih (pos + 1) (acc ++ cc ++ ['\n'])]
      simp [accOf, mkChunk]

theorem emit_hh (f : String) (l : List Text) : ∀ pos acc,
    hhOk acc (emitChunks f pos acc l).1 := by
  induction l with
  | nil => intro pos acc; trivial
  | cons cc rest ih =>
    intro pos acc
    cases hB : isBlank cc with
    | true => simp only [emitChunks, hB, if_true]; exact ih pos acc
    | false =>
      simp only [emitChunks, hB, Bool.false_eq_true, if_false]
      exact ⟨rfl, ih (pos + 1) (acc ++ cc ++ ['\n'])⟩

theorem hhOk_append {o₁ o₂ : List Chunk} : ∀ {acc : Text},
    hhOk acc o₁ → hhOk (acc ++ accOf o₁) o₂ → hhOk acc (o₁ ++ o₂) := by
  induction o₁ with
  | nil =>
    intro acc _ h₂
    simpa [accOf] using h₂
  | cons c o₁ ih =>
    intro acc h₁ h₂
    refine ⟨h₁.1, ih h₁.2 ?_⟩
    have : acc ++ accOf (c :: o₁) = acc ++ c.content ++ ['\n'] ++ accOf o₁ := by
      simp [accOf]
    rw [this] at h₂
    exact h₂

/-! ### Section-loop lemmas -/

theorem range'_glue (s k m : Nat) :
    List.range' s k ++ List.range' (s + k) m = List.range' s (k + m) := by
  have h := List.range'_append s k m 1
  simp only [Nat.one_mul, Nat.add_comm m k] at h
  simpa using h

theorem sectionsLoop_SW (ch : SemanticMDXChunker) (f : String) (cbs : List (Nat × Nat))
    (ss : List Text) : ∀ pos acc,
    SW ((sectionsLoop ch f cbs pos acc ss).map (fun c => c.content)) = SW ss := by
  induction ss with
  | nil => intro pos acc; rfl
  | cons sec rest ih =>
    intro pos acc
    simp only [sectionsLoop, List.map_append, SW_append]
    rw [emit_SW, ih, SW_cons]
    congr 1
    by_cases h : (estimate_tokens sec : Int) ≤ ch.max_chunk_size
    · rw [if_pos h, SW_single]
    · rw [if_neg h, chunk_large_section_SW]

theorem sectionsLoop_positions (ch : SemanticMDXChunker) (f : String)
    (cbs : List (Nat × Nat)) (ss : List Text) : ∀ pos acc,
    (sectionsLoop ch f cbs pos acc ss).map (fun c => c.position) =
      List.range' (pos + 1) (sectionsLoop ch f cbs pos acc ss).length := by
  induction ss with
  | nil => intro pos acc; rfl
  | cons sec rest ih =>
    intro pos acc
    simp only [sectionsLoop, List.map_append, List.length_append]
    generalize (if (estimate_tokens sec : Int) ≤ ch.max_chunk_size then [sec]
      else chunk_large_section ch sec cbs) = scs
    rw [emit_positions, ih, emit_pos_eq]
    have h : pos + (emitChunks f pos acc scs).1.length + 1 =
        pos + 1 + (emitChunks f pos acc scs).1.length := by omega
    rw [h, range'_glue]

theorem sectionsLoop_mem (ch : SemanticMDXChunker) (f : String)
    (cbs : List (Nat × Nat)) (ss : List Text) : ∀ pos acc,
    ∀ c ∈ sectionsLoop ch f cbs pos acc ss,
      c.chunk_id = chunkIdOf f c.position ∧
      c.language = chunkLanguage c.content ∧
      isBlank c.content = false := by
  induction ss with
  | nil => intro pos acc c hc; simp [sectionsLoop] at hc
  | cons sec rest ih =>
    intro pos acc c hc
    simp only [sectionsLoop, List.mem_append] at hc
    rcases hc with hc | hc
    · exact emit_mem f _ pos acc c hc
    · exact ih _ _ c hc

theorem sectionsLoop_hh (ch : SemanticMDXChunker) (f : String)
    (cbs : List (Nat × Nat)) (ss : List Text) : ∀ pos acc,
    hhOk acc (sectionsLoop ch f cbs pos acc ss) := by
  induction ss with
  | nil => intro pos acc; trivial
  | cons sec rest ih =>
    intro pos acc
    simp only [sectionsLoop]
    refine hhOk_append (emit_hh f _ pos acc) ?_
    rw [← emit_acc]
    exact ih _ _

/-! ### Decimal formatting: parsing back `pad3` recovers the position -/

/-- Parse a digit string back to a number (leading zeros are harmless). -/
def decVal : Nat → Text → Nat
  | a, [] => a
  | a, c :: r => decVal (a * 10 + (c.toNat - '0'.toNat)) r

theorem decVal_cons (a : Nat) (c : Char) (r : Text) :
    decVal a (c :: r) = decVal (a * 10 + (c.toNat - '0'.toNat)) r := rfl

theorem decVal_append (x y : Text) : ∀ a, decVal a (x ++ y) = decVal (decVal a x) y := by
  induction x with
  | nil => intro a; rfl
  | cons c r ih =>
    intro a
    rw [List.cons_append, decVal_cons, decVal_cons, ih]

theorem digitChar_val {d : Nat} (h : d < 10) :
    (Nat.digitChar d).toNat - '0'.toNat = d := by
  interval_cases d <;> decide

theorem natDigitsAux_zero (n : Nat) : natDigitsAux 0 n = [] := rfl

theorem natDigitsAux_succ (fuel n : Nat) : natDigitsAux (fuel + 1) n =
    if n = 0 then [] else natDigitsAux fuel (n / 10) ++ [Nat.digitChar (n % 10)] := rfl

theorem natDigitsAux_val : ∀ (fuel n : Nat), n ≤ fuel → ∀ a,
    decVal a (natDigitsAux fuel n) = a * 10 ^ (natDigitsAux fuel n).length + n := by
  intro fuel
  induction fuel with
  | zero =>
    intro n hn a
    have h : n = 0 := Nat.le_zero.mp hn
    subst h
    rw [natDigitsAux_zero]
    show a = a * 10 ^ ([] : List Char).length + 0
    simp
  | succ fuel ih =>
    intro n hn a
    by_cases h0 : n = 0
    · subst h0
      rw [natDigitsAux_succ, if_pos rfl]
      show a = a * 10 ^ ([] : List Char).length + 0
      simp
    · have hrec : n / 10 ≤ fuel := by
        have := Nat.div_lt_self (Nat.pos_of_ne_zero h0) (by norm_num : 1 < 10)
        omega
      rw [natDigitsAux_succ, if_neg h0]
      rw [decVal_append, ih (n / 10) hrec a, decVal_cons]
      simp only [List.length_append, List.length_singleton]
      show decVal ((a * 10 ^ (natDigitsAux fuel (n / 10)).length + n / 10) * 10 +
        ((Nat.digitChar (n % 10)).toNat - '0'.toNat)) [] =
        a * 10 ^ ((natDigitsAux fuel (n / 10)).length + 1) + n
      rw [digitChar_val (Nat.mod_lt n (by norm_num))]
      show (a * 10 ^ (natDigitsAux fuel (n / 10)).length + n / 10) * 10 + n % 10 =
        a * 10 ^ ((natDigitsAux fuel (n / 10)).length + 1) + n
      have hmod := Nat.div_add_mod n 10
      generalize (natDigitsAux fuel (n / 10)).length = L
      calc (a * 10 ^ L + n / 10) * 10 + n % 10
          = a * (10 ^ L * 10) + (10 * (n / 10) + n % 10) := by ring
        _ = a * 10 ^ (L + 1) + n := by rw [hmod, pow_succ]

theorem natRepr_val (n : Nat) : decVal 0 (natRepr n) = n := by
  by_cases h : n = 0
  · subst h
    rw [natRepr, if_pos rfl, decVal_cons]
    show 0 * 10 + ('0'.toNat - '0'.toNat) = 0
    rw [Nat.sub_self]
  · rw [natRepr, if_neg h, natDigitsAux_val n n le_rfl 0]
    omega

theorem pad3_val (n : Nat) : decVal 0 (pad3 n) = n := by
  have hz : ('0' : Char).toNat - '0'.toNat = 0 := Nat.sub_self _
  by_cases h10 : n < 10
  · rw [pad3, if_pos h10, decVal_cons, decVal_cons, hz]
    norm_num
    exact natRepr_val n
  · by_cases h100 : n < 100
    · rw [pad3, if_neg h10, if_pos h100, decVal_cons, hz]
      norm_num
      exact natRepr_val n
    · rw [pad3, if_neg h10, if_neg h100]
      exact natRepr_val n

theorem pad3_injective : Function.Injective pad3 := by
  intro a b h
  have := congrArg (decVal 0) h
  rwa [pad3_val, pad3_val] at this

theorem chunkIdOf_injective (f : String) : Function.Injective (chunkIdOf f) := by
  intro a b h
  have h₂ := List.append_cancel_left h
  have h₃ : pad3 a = pad3 b := by
    injection h₂
  exact pad3_injective h₃

/-! ### Miscellaneous support lemmas -/

theorem isPrefixOf_self (t : Text) : t.isPrefixOf t = true :=
  List.isPrefixOf_iff_prefix.mpr (List.prefix_refl t)

theorem findSub_self (t : Text) : findSub t t = some 0 := by
  cases t with
  | nil => rfl
  | cons c r =>
    show (if (c :: r).isPrefixOf (c :: r) = true then some 0
      else findSubAux (c :: r) 1 r) = some 0
    rw [isPrefixOf_self]
    simp

theorem floor_nat_mul_13_div_10 (w : Nat) :
    ⌊(w : ℚ) * 13 / 10⌋ = ((w * 13 / 10 : Nat) : Int) := by
  have hq : ((w : ℚ) * 13) = ((w * 13 : Nat) : ℚ) := by push_cast; ring
  have h1 : (w * 13 / 10 : Nat) * 10 ≤ w * 13 := Nat.div_mul_le_self _ _
  have h2 : w * 13 < (w * 13 / 10 + 1) * 10 := by omega
  rw [Int.floor_eq_iff]
  constructor
  · rw [hq, le_div_iff₀ (by norm_num : (0 : ℚ) < 10)]
    exact_mod_cast h1
  · rw [hq, div_lt_iff₀ (by norm_num : (0 : ℚ) < 10)]
    exact_mod_cast h2

/-! ### Claim theorems -/

/-- C1 (code_bug evidence): atomicity fails.  The document
`"intro\n\n```bash\n# install\nls\n```"` contains exactly one complete fenced
code block, `"```bash\n# install\nls\n```"`, but `split_at_heading` treats
the line `"# install"` inside the fence as a heading, so `chunk_content`
splits the document into two chunks neither of which contains the block in
full — and the first ends in a partial fence.  This contradicts both the
spec's atomicity guarantee and the module's own docstring ("Preserves code
blocks intact"). -/
theorem c1_code_atomicity_violation :
    (codeFenceSpansText "intro\n\n```bash\n# install\nls\n```".data).length = 1 ∧
    (chunk_content (SemanticMDXChunker.init 200 800 500)
        "intro\n\n```bash\n# install\nls\n```" "doc.md").map (fun c => c.content) =
      ["intro\n\n```bash".data, "# install\nls\n```".data] ∧
    ((chunk_content (SemanticMDXChunker.init 200 800 500)
        "intro\n\n```bash\n# install\nls\n```" "doc.md").all
      (fun c => !(containsSub "```bash\n# install\nls\n```".data c.content))) = true := by
  refine ⟨by decide, by decide, by decide⟩

/-- C2 (coverage): for every document and configuration, concatenating the
`content` of all chunks returned by `chunk_content` reproduces the body
(the document after frontmatter stripping) up to whitespace: the
subsequence of non-whitespace characters is preserved exactly, so no
characters are invented and only separator whitespace differs at merge
points. -/
theorem c2_coverage (ch : SemanticMDXChunker) (d f : String) :
    stripWS ((chunk_content ch d f).map (fun c => c.content)).flatten =
      stripWS (stripFrontmatter d.data) := by
  show stripWS ((sectionsLoop ch f _ 0 [] _).map (fun c => c.content)).flatten = _
  rw [stripWS_flatten, sectionsLoop_SW, SW_split_at_heading]

/-- C3 (counterexample): the claim says construction with an invalid
configuration (here minimum 800 > target 500 > maximum 200) fails fast with
a configuration error; in the source `__init__` has no validation and no
failure path, so construction succeeds and returns the values stored
unchanged. -/
theorem c3_counterexample :
    SemanticMDXChunker.init 800 200 500 =
      { min_chunk_size := 800, max_chunk_size := 200, target_chunk_size := 500 } := rfl

/-- C3 (amended): construction performs no validation at all — for every
configuration, including `minimum > target`, `target > maximum` and
non-positive bounds, the three values are accepted and stored unchanged
(no clamping, no error). -/
theorem c3_no_validation (a b c : Int) :
    (SemanticMDXChunker.init a b c).min_chunk_size = a ∧
    (SemanticMDXChunker.init a b c).max_chunk_size = b ∧
    (SemanticMDXChunker.init a b c).target_chunk_size = c := ⟨rfl, rfl, rfl⟩

/-- C4 (counterexample): on the three-word text `"a b c"` the source's
`estimate_tokens` truncates (`int(3 * 1.3) = 3`) while the spec's formula
`round(word_count * 1.3)` rounds `3.9` to `4`. -/
theorem c4_counterexample :
    estimate_tokens "a b c".data = 3 ∧ estimateTokensSpec "a b c".data = 4 ∧
      estimate_tokens "a b c".data ≠ estimateTokensSpec "a b c".data := by decide

/-- C4 (amended): for every text, `estimate_tokens` equals
`floor(word_count * 1.3) + 50 * complete_code_fences`, i.e. the spec's
formula with truncation toward zero in place of `round`. -/
theorem c4_token_estimate_floor (t : Text) :
    (estimate_tokens t : Int) =
      ⌊(wordCount t : ℚ) * 13 / 10⌋ + 50 * ((codeFenceSpansText t).length : Int) := by
  rw [floor_nat_mul_13_div_10, estimate_tokens]
  push_cast
  ring

/-- C5 (counterexample): an oversize code block does not always occupy its
own chunk.  With min 1, max 5, target 3, the document consisting of a single
fenced block containing a blank line (one complete fence, token estimate 63
exceeding the maximum) is split between its two paragraphs: two chunks,
neither containing the block. -/
theorem c5_counterexample :
    (codeFenceSpansText "```\naa bb cc dd\n\nee ff gg hh\n```".data).length = 1 ∧
    (estimate_tokens "```\naa bb cc dd\n\nee ff gg hh\n```".data : Int) > 5 ∧
    (chunk_content (SemanticMDXChunker.init 1 5 3)
        "```\naa bb cc dd\n\nee ff gg hh\n```" "d.md").map (fun c => c.content) =
      ["```\naa bb cc dd".data, "ee ff gg hh\n```".data] ∧
    ((chunk_content (SemanticMDXChunker.init 1 5 3)
        "```\naa bb cc dd\n\nee ff gg hh\n```" "d.md").all
      (fun c => !(containsSub "```\naa bb cc dd\n\nee ff gg hh\n```".data c.content)))
      = true := by
  refine ⟨by decide, by decide, by decide, by decide⟩

/-- C5 (amended): oversize isolation holds for a document that is a single
section (no splitting heading line) and a single paragraph (no blank line)
equal to one fenced code block: if its token estimate exceeds the maximum
and the code-block span covers offset 0, `chunk_content` returns exactly one
chunk whose content is the whole document — regardless of its size.  The
hypotheses state, computationally, that frontmatter stripping leaves the
document unchanged, the section and paragraph splitters return it whole,
its estimate exceeds the maximum, it is not whitespace-only, and a detected
code span contains offset 0 (the source tests `section.find(paragraph)`,
which is 0 here). -/
theorem c5_oversize_isolated (ch : SemanticMDXChunker) (d f : String)
    (h1 : stripFrontmatter d.data = d.data)
    (h2 : split_at_heading d.data = [d.data])
    (h3 : splitParasCh d.data = [d.data])
    (h4 : (estimate_tokens d.data : Int) > ch.max_chunk_size)
    (h5 : isBlank d.data = false)
    (h6 : ((codeFenceSpansText d.data).any
        (fun b => decide (b.1 ≤ 0) && decide (0 < b.2))) = true) :
    (chunk_content ch d f).map (fun c => c.content) = [d.data] := by
  have hle : ¬((estimate_tokens d.data : Int) ≤ ch.max_chunk_size) := not_le.mpr h4
  show (sectionsLoop ch f (codeFenceSpansText (stripFrontmatter d.data)) 0 []
    (split_at_heading (stripFrontmatter d.data))).map (fun c => c.content) = [d.data]
  rw [h1, h2]
  simp only [sectionsLoop, if_neg hle, chunk_large_section, h3, clsLoop, findSub_self, h6]
  simp only [List.isEmpty_nil, Bool.not_true, Bool.and_false, Bool.false_eq_true, if_false,
    List.nil_append, decide_eq_true_eq]
  have hforce : (true && decide ((estimate_tokens d.data : Int) > ch.max_chunk_size)) = true := by
    simp [h4]
  simp only [hforce, if_true]
  simp only [List.length_singleton, lt_self_iff_false, if_false, List.nil_append,
    List.isEmpty_nil, if_true]
  simp only [emitChunks, h5, Bool.false_eq_true, if_false]
  simp [mkChunk]

/-- C5 (witness): the amended theorem applied at a concrete oversize block
(`estimate 57 > maximum 3`). -/
theorem c5_oversize_isolated_witness :
    (chunk_content (SemanticMDXChunker.init 1 3 2) "```\nq q q q\n```" "doc.md").map
      (fun c => c.content) = ["```\nq q q q\n```".data] :=
  c5_oversize_isolated (SemanticMDXChunker.init 1 3 2) "```\nq q q q\n```" "doc.md"
    (by decide) (by decide) (by decide) (by decide) (by decide) (by decide)

/-- C6 (counterexample): the spec example claims the document yields exactly
one chunk; `split_at_heading` starts a new section at `"## Sub"`, so
`chunk_content` returns two chunks. -/
theorem c6_counterexample :
    (chunk_content (SemanticMDXChunker.init 200 800 500)
      "# Title\n\nSome intro text.\n\n## Sub\n\n```python\nprint(1)\n```\n"
      "doc.mdx").length = 2 := by decide

/-- C6 (amended): the example input with min 200, max 800, target 500 yields
exactly two chunks: the first is the `"# Title"` section (`general`, no
code, no language, empty hierarchy, position 1), the second is the
`"## Sub"` section carrying the code fence (`code_reference`,
`has_code = true`, language `python`, hierarchy `["Title"]`, position 2). -/
theorem c6_example_two_chunks :
    (chunk_content (SemanticMDXChunker.init 200 800 500)
      "# Title\n\nSome intro text.\n\n## Sub\n\n```python\nprint(1)\n```\n"
      "doc.mdx").map
      (fun c => (c.content, c.content_type, c.has_code, c.language,
        c.heading_hierarchy, c.position)) =
    [("# Title\n\nSome intro text.\n".data, "general", false, none, [], 1),
     ("## Sub\n\n```python\nprint(1)\n```\n".data, "code_reference", true,
       some "python".data, ["Title".data], 2)] := by decide

/-- C7: positions are exactly `1..N` in document order (a contiguous run
with no gaps or repeats), every `chunk_id` is built as
`{source_stem}-{position:03d}`, and the ids are pairwise distinct within the
document. -/
theorem c7_positions_contiguous_ids_unique (ch : SemanticMDXChunker) (d f : String) :
    (chunk_content ch d f).map (fun c => c.position) =
        List.range' 1 (chunk_content ch d f).length ∧
      (chunk_content ch d f).map (fun c => c.chunk_id) =
        (chunk_content ch d f).map (fun c => chunkIdOf f c.position) ∧
      ((chunk_content ch d f).map (fun c => c.chunk_id)).Nodup := by
  have hpos : (chunk_content ch d f).map (fun c => c.position) =
      List.range' 1 (chunk_content ch d f).length :=
    sectionsLoop_positions ch f (codeFenceSpansText (stripFrontmatter d.data))
      (split_at_heading (stripFrontmatter d.data)) 0 []
  have hid : (chunk_content ch d f).map (fun c => c.chunk_id) =
      (chunk_content ch d f).map (fun c => chunkIdOf f c.position) :=
    List.map_congr_left (fun c hc =>
      (sectionsLoop_mem ch f (codeFenceSpansText (stripFrontmatter d.data))
        (split_at_heading (stripFrontmatter d.data)) 0 [] c hc).1)
  refine ⟨hpos, hid, ?_⟩
  rw [hid]
  have hcomp : (chunk_content ch d f).map (fun c => chunkIdOf f c.position) =
      ((chunk_content ch d f).map (fun c => c.position)).map (chunkIdOf f) := by
    rw [List.map_map]
    rfl
  rw [hcomp, hpos]
  exact List.Nodup.map (chunkIdOf_injective f) (List.nodup_range' 1 _)

/-- C8 (counterexample): with min = max = target = 1 the document
`"x\n##\n\n \n\nb c"` produces the chunks `"x\n##"` and `"b c"`, the
whitespace-only candidate `" "` between them being dropped.  The second
chunk's recorded hierarchy is `[]`, but the text strictly before that chunk
in the original document is `"x\n##\n\n \n\n"`, whose heading replay is
`[""]`: the regex `^(#{1,6})\s+(.+)$` matches the hash run `"##"` with the
dropped space as its (stripped-empty) title.  So the hierarchy does not
equal the replay of the headings appearing strictly before the chunk in the
original text. -/
theorem c8_counterexample :
    ("x\n##" ++ "\n\n \n\n" ++ "b c" : String) = "x\n##\n\n \n\nb c" ∧
    (chunk_content (SemanticMDXChunker.init 1 1 1) "x\n##\n\n \n\nb c" "f.md").map
        (fun c => (c.content, c.heading_hierarchy)) =
      [("x\n##".data, []), ("b c".data, [])] ∧
    extract_heading_hierarchy "x\n##\n\n \n\n".data = [[]] := by
  refine ⟨rfl, by decide, by decide⟩

/-- C8 (amended): every chunk's `heading_hierarchy` equals
`extract_heading_hierarchy` — the level-keyed replace-and-truncate replay,
emitted in ascending level order — applied to the concatenation of the
contents of the previously emitted chunks, each followed by a newline
(`accumulated_text`); it therefore never reflects headings of the chunk
itself or of later chunks, but whitespace dropped with a blank candidate is
not replayed even though it can complete a heading match in the original
text. -/
theorem c8_heading_hierarchy_replay (ch : SemanticMDXChunker) (d f : String) :
    hhOk [] (chunk_content ch d f) :=
  sectionsLoop_hh ch f (codeFenceSpansText (stripFrontmatter d.data))
    (split_at_heading (stripFrontmatter d.data)) 0 []

/-- C9: every chunk's content is non-blank (whitespace-only candidate chunk
strings are dropped), and the dropped candidates consume no position: the
emitted positions are still the contiguous run `1..N`. -/
theorem c9_chunks_nonblank (ch : SemanticMDXChunker) (d f : String) :
    ((chunk_content ch d f).all (fun c => !(isBlank c.content))) = true ∧
      (chunk_content ch d f).map (fun c => c.position) =
        List.range' 1 (chunk_content ch d f).length := by
  constructor
  · rw [List.all_eq_true]
    intro c hc
    have h := (sectionsLoop_mem ch f (codeFenceSpansText (stripFrontmatter d.data))
      (split_at_heading (stripFrontmatter d.data)) 0 [] c hc).2.2
    simp [h]
  · exact sectionsLoop_positions ch f (codeFenceSpansText (stripFrontmatter d.data))
      (split_at_heading (stripFrontmatter d.data)) 0 []

/-- C10: every chunk's `language` is computed by `chunkLanguage` from its
own content — the first line starting with three backticks followed by a
word, with no requirement that the fence be closed — and on the document
`"```js\nx"` (an unclosed fence) the single chunk has `language = some "js"`
while `has_code = false`. -/
theorem c10_language_unclosed_fence :
    (∀ (ch : SemanticMDXChunker) (d f : String),
        (chunk_content ch d f).map (fun c => c.language) =
          (chunk_content ch d f).map (fun c => chunkLanguage c.content)) ∧
      (chunk_content (SemanticMDXChunker.init 200 800 500) "```js\nx" "f.md").map
          (fun c => (c.language, c.has_code)) = [(some "js".data, false)] := by
  constructor
  · intro ch d f
    exact List.map_congr_left (fun c hc =>
      (sectionsLoop_mem ch f (codeFenceSpansText (stripFrontmatter d.data))
        (split_at_heading (stripFrontmatter d.data)) 0 [] c hc).2.1)
  · decide
